import Mathlib

/-!
Verification of the Markco comment-anchoring engine.

The TypeScript sources are shallowly embedded: JavaScript strings are
modelled as `List Char` (UTF-16 code units of interest are all scalar
values), regex-based transforms are translated into explicit scans, and
the two platform primitives that the code calls (`JSON.parse` /
`JSON.stringify` and `vscode.workspace.applyEdit`) are taken as opaque
function parameters.  Optional boolean fields (`orphaned?`, `resolved?`)
are modelled as `Bool` with `false` for "absent", matching JavaScript
truthiness at every use site.
-/

namespace Markco

/-- JavaScript strings are modelled as lists of characters. -/
abbrev Str := List Char

/-! ## JavaScript string primitives -/

/-- The pattern `pat` occurs in `text` starting at index `i`. -/
def occursAt (pat text : Str) (i : Nat) : Prop :=
  pat <+: text.drop i

instance (pat text : Str) (i : Nat) : Decidable (occursAt pat text i) := by
  unfold occursAt; infer_instance

/-- Scan helper for `String.prototype.indexOf`: first index `≥ i` (in the
original string, `t` being its suffix from `i`) where `pat` occurs. -/
def scanIdx (pat : Str) : Str → Nat → Option Nat
  | [], i => if pat.isPrefixOf [] then some i else none
  | c :: rest, i => if pat.isPrefixOf (c :: rest) then some i else scanIdx pat rest (i + 1)

/-- `text.indexOf(pat)` (result `none` models `-1`). -/
def jsIndexOf (text pat : Str) : Option Nat :=
  scanIdx pat text 0

/-- `text.indexOf(pat, start)` (result `none` models `-1`). -/
def jsIndexOfFrom (text pat : Str) (start : Nat) : Option Nat :=
  scanIdx pat (text.drop (min start text.length)) (min start text.length)

/-- Helper for `String.prototype.lastIndexOf`: the largest index `≤ i`
at which `pat` occurs in `text`. -/
def lastIdxAux (pat text : Str) : Nat → Option Nat
  | 0 => if pat.isPrefixOf text then some 0 else none
  | i + 1 =>
    if pat.isPrefixOf (text.drop (i + 1)) then some (i + 1) else lastIdxAux pat text i

/-- Index of the last occurrence of the character `ch` in `s`. -/
def lastIdxChar (s : Str) (ch : Char) : Option Nat :=
  match s with
  | [] => none
  | c :: rest =>
    match lastIdxChar rest ch with
    | some j => some (j + 1)
    | none => if c = ch then some 0 else none

/-- The set matched by JavaScript `\s` (WhiteSpace ∪ LineTerminator). -/
def isJsSpace (c : Char) : Bool :=
  c == ' ' || c == '\t' || c == '\n' || c == '\r' || c.val == 0x0b || c.val == 0x0c ||
  c.val == 0xa0 || c.val == 0x1680 || (0x2000 ≤ c.val && c.val ≤ 0x200a) ||
  c.val == 0x2028 || c.val == 0x2029 || c.val == 0x202f || c.val == 0x205f ||
  c.val == 0x3000 || c.val == 0xfeff

/-- `String.prototype.trim`. -/
def jsTrim (s : Str) : Str :=
  ((s.dropWhile isJsSpace).reverse.dropWhile isJsSpace).reverse

/-! ## The document model

The editor document is just its text; positions are computed exactly as
`positionAt` / `offsetAt` do in the repository's mock `TextDocument`
(0-based lines separated by a single newline character). -/

/-- `text.split('\n')`. -/
def splitNl : Str → List Str
  | [] => [[]]
  | c :: rest =>
    if c = '\n' then [] :: splitNl rest
    else
      match splitNl rest with
      | l :: ls => (c :: l) :: ls
      | [] => [[c]]

/-- `document.lineCount`. -/
def lineCount (text : Str) : Nat :=
  (splitNl text).length

/-- `document.lineAt(n).text` (the mock returns `''` past the end). -/
def lineAt (text : Str) (n : Nat) : Str :=
  (splitNl text).getD n []

/-- `document.offsetAt(position)`: sum of the lengths (plus newline) of the
preceding lines, plus the character offset, clamped to the text length. -/
def offsetAt (text : Str) (line chr : Nat) : Nat :=
  min ((((splitNl text).take line).map (fun l => l.length + 1)).sum + chr) text.length

/-- `document.positionAt(offset)`: line is the number of newlines before the
(clamped) offset, character is the distance from the last newline. -/
def positionAt (text : Str) (offset : Nat) : Nat × Nat :=
  ((text.take offset).count '\n',
   ((text.take offset).reverse.takeWhile (fun c => c ≠ '\n')).length)

/-! ## Data model (`types.ts`) -/

/-- `CommentAnchor` from `types.ts`. -/
structure CommentAnchor where
  text : Str
  startLine : Nat
  startChar : Nat
  endLine : Nat
  endChar : Nat
deriving DecidableEq, Repr

/-- `Reply` from `types.ts`. -/
structure Reply where
  id : Str
  content : Str
  author : Str
  createdAt : Str
  updatedAt : Option Str
  thumbsUp : Option (List Str)
deriving DecidableEq, Repr

/-- `Comment` from `types.ts` (optional booleans become `Bool`, absent = `false`). -/
structure Comment where
  id : Str
  anchor : CommentAnchor
  content : Str
  author : Str
  createdAt : Str
  updatedAt : Option Str
  resolved : Bool
  orphaned : Bool
  thumbsUp : Option (List Str)
  replies : Option (List Reply)
deriving DecidableEq, Repr

/-- `CommentData` from `types.ts`. -/
structure CommentData where
  version : Nat
  comments : List Comment
deriving DecidableEq, Repr

/-- Outcome of `JSON.parse` followed by the shape check on `data.comments`:
`fail` models a thrown exception, `okBad` a parse whose `comments` field is
missing or not an array, `ok` a well-shaped payload. -/
inductive DecodeResult where
  | fail
  | okBad
  | ok (comments : List Comment)
deriving DecidableEq

/-! ## Storage sanitization (`CommentService.ts`) -/

/-- `sanitizeForStorage`: the global replace of `-->` by `--ZWSP>`
(zero-width space inserted before the closing angle bracket), scanning
left to right without overlap, exactly as the JavaScript regex does. -/
def sanitizeForStorage : Str → Str
  | [] => []
  | [c] => [c]
  | [c, d] => [c, d]
  | c :: d :: e :: rest =>
    if c = '-' ∧ d = '-' ∧ e = '>' then
      '-' :: '-' :: '\u200B' :: '>' :: sanitizeForStorage rest
    else
      c :: sanitizeForStorage (d :: e :: rest)

/-- `restoreFromStorage`: the global replace of `--ZWSP>` by `-->`. -/
def restoreFromStorage : Str → Str
  | [] => []
  | [c] => [c]
  | [c, d] => [c, d]
  | [c, d, e] => [c, d, e]
  | c :: d :: e :: f :: rest =>
    if c = '-' ∧ d = '-' ∧ e = '\u200B' ∧ f = '>' then
      '-' :: '-' :: '>' :: restoreFromStorage rest
    else
      c :: restoreFromStorage (d :: e :: f :: rest)

/-- Whether `s` contains the zero-width escape sequence `--ZWSP>`. -/
def containsEsc : Str → Bool
  | c :: d :: e :: f :: rest =>
    if c = '-' ∧ d = '-' ∧ e = '\u200B' ∧ f = '>' then true
    else containsEsc (d :: e :: f :: rest)
  | _ => false

/-! ### Round-trip of the storage sanitization (claim C2) -/

theorem containsEsc_cons (c : Char) (cs : Str) (h : containsEsc (c :: cs) = false) :
    containsEsc cs = false := by
  match cs with
  | [] => rfl
  | [d] => rfl
  | [d, e] => rfl
  | d :: e :: f :: r =>
    rw [containsEsc] at h
    split at h
    · exact absurd h (by simp)
    · exact h

theorem sanitize_starts_gt (t : Str) (r : Str) (h : sanitizeForStorage t = '>' :: r) :
    ∃ u, t = '>' :: u := by
  match t with
  | [] => simp [sanitizeForStorage] at h
  | [c] =>
    rw [sanitizeForStorage] at h
    simp only [List.cons.injEq] at h
    exact ⟨[], by rw [h.1]⟩
  | [c, d] =>
    rw [sanitizeForStorage] at h
    simp only [List.cons.injEq] at h
    exact ⟨[d], by rw [h.1]⟩
  | c :: d :: e :: rest =>
    rw [sanitizeForStorage] at h
    split at h
    · simp only [List.cons.injEq] at h
      exact absurd h.1 (by decide)
    · simp only [List.cons.injEq] at h
      exact ⟨d :: e :: rest, by rw [h.1]⟩

theorem sanitize_starts_zwsp_gt (t : Str) (r : Str)
    (h : sanitizeForStorage t = '\u200B' :: '>' :: r) :
    ∃ u, t = '\u200B' :: '>' :: u := by
  match t with
  | [] => simp [sanitizeForStorage] at h
  | [c] =>
    rw [sanitizeForStorage] at h
    simp only [List.cons.injEq] at h
    exact absurd h.2 (by simp)
  | [c, d] =>
    rw [sanitizeForStorage] at h
    simp only [List.cons.injEq] at h
    exact ⟨[], by rw [h.1, h.2.1]⟩
  | c :: d :: e :: rest =>
    rw [sanitizeForStorage] at h
    split at h
    · simp only [List.cons.injEq] at h
      exact absurd h.1 (by decide)
    · simp only [List.cons.injEq] at h
      obtain ⟨hc, htl⟩ := h
      obtain ⟨u, hu⟩ := sanitize_starts_gt (d :: e :: rest) r htl
      simp only [List.cons.injEq] at hu
      exact ⟨e :: rest, by rw [hc, hu.1]⟩

theorem sanitize_starts_esc_tail (t : Str) (r : Str)
    (h : sanitizeForStorage t = '-' :: '\u200B' :: '>' :: r) :
    ∃ u, t = '-' :: '\u200B' :: '>' :: u := by
  match t with
  | [] => simp [sanitizeForStorage] at h
  | [c] =>
    rw [sanitizeForStorage] at h
    simp only [List.cons.injEq] at h
    exact absurd h.2 (by simp)
  | [c, d] =>
    rw [sanitizeForStorage] at h
    simp only [List.cons.injEq] at h
    exact absurd h.2.2 (by simp)
  | c :: d :: e :: rest =>
    rw [sanitizeForStorage] at h
    split at h
    · simp only [List.cons.injEq] at h
      exact absurd h.2.1 (by decide)
    · simp only [List.cons.injEq] at h
      obtain ⟨hc, htl⟩ := h
      obtain ⟨u, hu⟩ := sanitize_starts_zwsp_gt (d :: e :: rest) r htl
      simp only [List.cons.injEq] at hu
      exact ⟨rest, by rw [hc, hu.1, hu.2.1]⟩

theorem restore_cons_of_not_esc_head (c : Char) (t : Str)
    (hn : ¬ (c = '-' ∧ ∃ u, t = '-' :: '\u200B' :: '>' :: u)) :
    restoreFromStorage (c :: t) = c :: restoreFromStorage t := by
  match t with
  | [] => rfl
  | [d] => rfl
  | [d, e] => rfl
  | d :: e :: f :: r =>
    rw [restoreFromStorage]
    split
    · rename_i hcond
      exact absurd ⟨hcond.1, r, by rw [hcond.2.1, hcond.2.2.1, hcond.2.2.2]⟩ hn
    · rfl

/-- Claim C2 (amended): for every string `s` that does not already contain
the zero-width escape sequence `--ZWSP>`, `restoreFromStorage` exactly
reverses `sanitizeForStorage`. -/
theorem restore_sanitize_roundtrip (s : Str) (h : containsEsc s = false) :
    restoreFromStorage (sanitizeForStorage s) = s := by
  induction s using sanitizeForStorage.induct with
  | case1 => rfl
  | case2 c => rfl
  | case3 c d => rfl
  | case4 c d e rest hcond ih =>
    obtain ⟨hc, hd, he⟩ := hcond
    subst hc hd he
    have hrest : containsEsc rest = false :=
      containsEsc_cons _ _ (containsEsc_cons _ _ (containsEsc_cons _ _ h))
    rw [sanitizeForStorage, if_pos ⟨rfl, rfl, rfl⟩, restoreFromStorage,
      if_pos ⟨rfl, rfl, rfl, rfl⟩, ih hrest]
  | case5 c d e rest hcond ih =>
    have htail : containsEsc (d :: e :: rest) = false := containsEsc_cons _ _ h
    rw [sanitizeForStorage, if_neg hcond]
    rw [restore_cons_of_not_esc_head c _ ?hne]
    · rw [ih htail]
    case hne =>
      rintro ⟨hc, u, hu⟩
      obtain ⟨u2, hu2⟩ := sanitize_starts_esc_tail (d :: e :: rest) u hu
      subst hc
      simp only [List.cons.injEq] at hu2
      obtain ⟨hd, he, hr⟩ := hu2
      subst hd
      subst he
      subst hr
      rw [containsEsc, if_pos ⟨rfl, rfl, rfl, rfl⟩] at h
      exact absurd h (by simp)

/-- Claim C2, counterexample: the round trip fails on the string that
consists of the zero-width escape sequence itself — sanitization leaves it
unchanged and restoration rewrites it to `-->`. -/
theorem restore_sanitize_roundtrip_fails_on_esc :
    ¬ (restoreFromStorage (sanitizeForStorage ['-', '-', '\u200B', '>']) =
        ['-', '-', '\u200B', '>']) := by
  decide

/-- Witness for `restore_sanitize_roundtrip` at the concrete string `a-->b`. -/
theorem restore_sanitize_roundtrip_witness :
    containsEsc "a-->b".toList = false ∧
    restoreFromStorage (sanitizeForStorage "a-->b".toList) = "a-->b".toList :=
  ⟨by decide, restore_sanitize_roundtrip _ (by decide)⟩

/-! ## Locating the metadata block (`CommentService.ts`) -/

/-- The literal start marker of the metadata block. -/
def COMMENT_BLOCK_START : Str := "<!-- markco-comments".toList

/-- The literal end marker of the metadata block. -/
def COMMENT_BLOCK_END : Str := "-->".toList

/-- Number of non-overlapping matches of three consecutive backticks
(the JavaScript global regex over triple backticks). -/
def countTriple : Str → Nat
  | '`' :: '`' :: '`' :: rest => countTriple rest + 1
  | _ :: rest => countTriple rest
  | [] => 0

/-- Number of isolated backticks (a backtick neither preceded nor followed
by another backtick); `prev` is the character before the scanned suffix. -/
def countIsolated : Option Char → Str → Nat
  | _, [] => 0
  | prev, c :: rest =>
    (if c = '`' ∧ prev ≠ some '`' ∧ rest.head? ≠ some '`' then 1 else 0) +
      countIsolated (some c) rest

/-- `isInsideInlineCode` from the preview plugin: the backtick-before-the-
position quick check, then the odd-count-of-isolated-backticks-on-the-line
check.  The inline-code branch of the service's `isInsideCodeContext` is
this same logic. -/
def isInsideInlineCode (text : Str) (position : Nat) : Bool :=
  if 0 < position ∧ text.get? (position - 1) = some '`' ∧
      ¬ (3 ≤ position ∧ (text.take position).drop (position - 3) = "```".toList) then
    true
  else
    match lastIdxChar (text.take position) '`' with
    | none => false
    | some lastBacktickIndex =>
      if "```".toList.isPrefixOf ((text.take position).drop lastBacktickIndex) then false
      else
        let lineStart :=
          match lastIdxChar ((text.take position).take (lastBacktickIndex + 1)) '\n' with
          | some k => k + 1
          | none => 0
        let lineEnd :=
          match jsIndexOfFrom text ['\n'] position with
          | some k => k
          | none => text.length
        let line := (text.take lineEnd).drop lineStart
        let positionInLine := position - lineStart
        decide (countIsolated none (line.take positionInLine) % 2 = 1) &&
          decide (0 < countIsolated none (line.drop positionInLine))

/-- `isInsideCodeContext` from `CommentService.ts`: inside a fenced code
region (odd number of triple backticks before the position) or inside an
inline code span. -/
def isInsideCodeContext (text : Str) (position : Nat) : Bool :=
  countTriple (text.take position) % 2 == 1 || isInsideInlineCode text position

/-- Loop of `findCommentBlockStart`, searching backwards from
`searchStart`; the fuel argument bounds the number of iterations (the
search start strictly decreases, so `searchStart + 1` iterations always
suffice). -/
def fcbsAux (text : Str) : Nat → Nat → Option Nat
  | 0, _ => none
  | fuel + 1, searchStart =>
    if searchStart = 0 then none
    else
      match lastIdxAux COMMENT_BLOCK_START text (searchStart - 1) with
      | none => none
      | some index =>
        if isInsideCodeContext text index then fcbsAux text fuel index
        else some index

/-- `findCommentBlockStart` from `CommentService.ts` (result `none`
models `-1`): right-most occurrence of the start marker that is not
inside a code context. -/
def findCommentBlockStart (text : Str) : Option Nat :=
  fcbsAux text (text.length + 1) text.length

/-! ### Specification lemmas for the scanning primitives -/

theorem scanIdx_some (pat : Str) :
    ∀ (t : Str) (i j : Nat), scanIdx pat t i = some j →
      i ≤ j ∧ pat <+: t.drop (j - i) ∧ ∀ k, k < j - i → ¬ pat <+: t.drop k := by
  intro t
  induction t with
  | nil =>
    intro i j h
    rw [scanIdx] at h
    split at h
    · rename_i hp
      obtain rfl := Option.some.injEq .. ▸ h
      refine ⟨le_rfl, ?_, ?_⟩
      · simpa using List.isPrefixOf_iff_prefix.mp hp
      · intro k hk
        omega
    · exact absurd h (by simp)
  | cons c rest ih =>
    intro i j h
    rw [scanIdx] at h
    split at h
    · rename_i hp
      obtain rfl := Option.some.injEq .. ▸ h
      refine ⟨le_rfl, ?_, ?_⟩
      · simpa using List.isPrefixOf_iff_prefix.mp hp
      · intro k hk
        omega
    · rename_i hp
      obtain ⟨h1, h2, h3⟩ := ih (i + 1) j h
      refine ⟨by omega, ?_, ?_⟩
      · have : (c :: rest).drop (j - i) = rest.drop (j - (i + 1)) := by
          have : j - i = (j - (i + 1)) + 1 := by omega
          rw [this, List.drop_succ_cons]
        rw [this]
        exact h2
      · intro k hk
        match k with
        | 0 =>
          simpa using fun hcontra => hp (List.isPrefixOf_iff_prefix.mpr hcontra)
        | k' + 1 =>
          rw [List.drop_succ_cons]
          exact h3 k' (by omega)

theorem jsIndexOf_some (text pat : Str) (j : Nat) (h : jsIndexOf text pat = some j) :
    occursAt pat text j ∧ ∀ k, k < j → ¬ occursAt pat text k := by
  obtain ⟨-, h2, h3⟩ := scanIdx_some pat text 0 j h
  exact ⟨by simpa [occursAt] using h2, fun k hk => by simpa [occursAt] using h3 k (by omega)⟩

theorem jsIndexOf_first (text pat : Str) (j : Nat) (h : jsIndexOf text pat = some j) :
    ∀ k, occursAt pat text k → j ≤ k := by
  intro k hk
  by_contra hlt
  exact (jsIndexOf_some text pat j h).2 k (by omega) hk

theorem lastIdxAux_some (pat text : Str) :
    ∀ (i j : Nat), lastIdxAux pat text i = some j →
      j ≤ i ∧ occursAt pat text j ∧ ∀ k, k ≤ i → occursAt pat text k → k ≤ j := by
  intro i
  induction i with
  | zero =>
    intro j h
    rw [lastIdxAux] at h
    split at h
    · rename_i hp
      obtain rfl := Option.some.injEq .. ▸ h
      refine ⟨le_rfl, ?_, fun k hk _ => hk⟩
      simpa [occursAt] using List.isPrefixOf_iff_prefix.mp hp
    · exact absurd h (by simp)
  | succ i' ih =>
    intro j h
    rw [lastIdxAux] at h
    split at h
    · rename_i hp
      obtain rfl := Option.some.injEq .. ▸ h
      refine ⟨le_rfl, ?_, fun k hk _ => hk⟩
      simpa [occursAt] using List.isPrefixOf_iff_prefix.mp hp
    · rename_i hp
      obtain ⟨h1, h2, h3⟩ := ih j h
      refine ⟨by omega, h2, ?_⟩
      intro k hk hocc
      rcases Nat.lt_or_ge k (i' + 1) with hlt | hge
      · exact h3 k (by omega) hocc
      · have : k = i' + 1 := by omega
        subst this
        exact absurd (List.isPrefixOf_iff_prefix.mpr hocc) (by simpa using hp)

theorem lastIdxAux_none (pat text : Str) :
    ∀ (i : Nat), lastIdxAux pat text i = none →
      ∀ k, k ≤ i → ¬ occursAt pat text k := by
  intro i
  induction i with
  | zero =>
    intro h k hk hocc
    rw [lastIdxAux] at h
    split at h
    · exact absurd h (by simp)
    · rename_i hp
      have : k = 0 := by omega
      subst this
      exact hp (List.isPrefixOf_iff_prefix.mpr (by simpa [occursAt] using hocc))
  | succ i' ih =>
    intro h k hk hocc
    rw [lastIdxAux] at h
    split at h
    · exact absurd h (by simp)
    · rename_i hp
      rcases Nat.lt_or_ge k (i' + 1) with hlt | hge
      · exact ih h k (by omega) hocc
      · have : k = i' + 1 := by omega
        subst this
        exact hp (List.isPrefixOf_iff_prefix.mpr hocc)

theorem occursAt_lt_length (pat text : Str) (j : Nat)
    (h : occursAt pat text j) (hne : 0 < pat.length) : j < text.length := by
  have hle := h.length_le
  rw [List.length_drop] at hle
  omega

/-! ### Correctness of `findCommentBlockStart` (claim C3) -/

theorem fcbsAux_some (text : Str) :
    ∀ (fuel searchStart i : Nat), fcbsAux text fuel searchStart = some i →
      occursAt COMMENT_BLOCK_START text i ∧ isInsideCodeContext text i = false ∧
      ∀ j, j < searchStart → occursAt COMMENT_BLOCK_START text j →
        isInsideCodeContext text j = false → j ≤ i := by
  intro fuel
  induction fuel with
  | zero => intro searchStart i h; exact absurd h (by simp [fcbsAux])
  | succ fuel' ih =>
    intro searchStart i h
    rw [fcbsAux] at h
    split at h
    · exact absurd h (by simp)
    · rename_i hss
      split at h
      · exact absurd h (by simp)
      · rename_i index hL
        obtain ⟨hle, hocc, hmax⟩ := lastIdxAux_some COMMENT_BLOCK_START text _ _ hL
        split at h
        · rename_i hcode
          obtain ⟨g1, g2, g3⟩ := ih index i h
          refine ⟨g1, g2, ?_⟩
          intro j hj hjocc hjcode
          have hji : j ≤ index := hmax j (by omega) hjocc
          rcases Nat.lt_or_ge j index with hlt | hge
          · exact g3 j hlt hjocc hjcode
          · have : j = index := by omega
            subst this
            exact absurd hcode (by simp [hjcode])
        · obtain rfl := Option.some.injEq .. ▸ h
          rename_i hcode
          refine ⟨hocc, by simpa using hcode, ?_⟩
          intro j hj hjocc _
          exact hmax j (by omega) hjocc

theorem fcbsAux_none (text : Str) :
    ∀ (fuel searchStart : Nat), searchStart < fuel →
      fcbsAux text fuel searchStart = none →
      ∀ j, j < searchStart → occursAt COMMENT_BLOCK_START text j →
        isInsideCodeContext text j = true := by
  intro fuel
  induction fuel with
  | zero => intro searchStart h; omega
  | succ fuel' ih =>
    intro searchStart hfuel h j hj hjocc
    rw [fcbsAux] at h
    split at h
    · omega
    · rename_i hss
      split at h
      · rename_i hL
        exact absurd hjocc (lastIdxAux_none COMMENT_BLOCK_START text _ hL j (by omega))
      · rename_i index hL
        obtain ⟨hle, hocc, hmax⟩ := lastIdxAux_some COMMENT_BLOCK_START text _ _ hL
        split at h
        · rename_i hcode
          have hji : j ≤ index := hmax j (by omega) hjocc
          rcases Nat.lt_or_ge j index with hlt | hge
          · exact ih index (by omega) h j hlt hjocc
          · have : j = index := by omega
            subst this
            exact hcode
        · exact absurd h (by simp)

/-- Claim C3: `findCommentBlockStart` returns the offset of the right-most
occurrence of the start marker that is not inside a code context (per
`isInsideCodeContext`: a fenced region tracked by an odd triple-backtick
count before the offset, or an inline code span), and returns `none`
(modelling `-1`) exactly when every occurrence is inside a code context. -/
theorem findCommentBlockStart_spec (text : Str) :
    (∀ i, findCommentBlockStart text = some i →
      occursAt COMMENT_BLOCK_START text i ∧ isInsideCodeContext text i = false ∧
      ∀ j, occursAt COMMENT_BLOCK_START text j →
        isInsideCodeContext text j = false → j ≤ i) ∧
    (findCommentBlockStart text = none →
      ∀ j, occursAt COMMENT_BLOCK_START text j → isInsideCodeContext text j = true) := by
  constructor
  · intro i h
    obtain ⟨g1, g2, g3⟩ := fcbsAux_some text _ _ _ h
    refine ⟨g1, g2, ?_⟩
    intro j hjocc hjcode
    have hjlt : j < text.length := occursAt_lt_length _ _ _ hjocc (by decide)
    exact g3 j hjlt hjocc hjcode
  · intro h j hjocc
    have hjlt : j < text.length := occursAt_lt_length _ _ _ hjocc (by decide)
    exact fcbsAux_none text (text.length + 1) text.length (by omega) h j hjlt hjocc

/-- A document with a decoy start marker inside a fenced code block and a
real, non-fenced marker later. -/
def decoyDoc : Str :=
  "```\n<!-- markco-comments\n```\nok\n<!-- markco-comments x -->".toList

/-- Witness for `findCommentBlockStart_spec`: on `decoyDoc` the fenced
occurrence at offset 4 is rejected and the later occurrence at offset 32
is returned. -/
theorem findCommentBlockStart_spec_witness :
    findCommentBlockStart decoyDoc = some 32 ∧
    occursAt COMMENT_BLOCK_START decoyDoc 4 ∧
    isInsideCodeContext decoyDoc 4 = true ∧
    occursAt COMMENT_BLOCK_START decoyDoc 32 ∧
    isInsideCodeContext decoyDoc 32 = false :=
  ⟨by decide, by decide, by decide,
    ((findCommentBlockStart_spec decoyDoc).1 32 (by decide)).1,
    ((findCommentBlockStart_spec decoyDoc).1 32 (by decide)).2.1⟩

/-! ## Anchor reconciliation (`CommentService.ts`) -/

/-- The searchable text used by `findAnchorInDocument`: the document with
the metadata block's byte range (start marker through end marker) cut out. -/
def searchableTextOf (fullText : Str) : Str :=
  match findCommentBlockStart fullText with
  | some commentBlockStart =>
    match jsIndexOfFrom fullText COMMENT_BLOCK_END commentBlockStart with
    | some commentBlockEnd =>
      fullText.take commentBlockStart ++
        fullText.drop (commentBlockEnd + COMMENT_BLOCK_END.length)
    | none => fullText.take commentBlockStart
  | none => fullText

/-- Mapping a match offset in the searchable text back to a document
offset (`findAnchorInDocument`): when the match falls at or after the
excised block's start, the removed block length is added back. -/
def mapBackOffset (fullText : Str) (index : Nat) : Nat :=
  match findCommentBlockStart fullText with
  | some commentBlockStart =>
    if commentBlockStart ≤ index then
      match jsIndexOfFrom fullText COMMENT_BLOCK_END commentBlockStart with
      | some commentBlockEnd =>
        index + (commentBlockEnd + COMMENT_BLOCK_END.length - commentBlockStart)
      | none => index
    else index
  | none => index

/-- `findAnchorInDocument` from `CommentService.ts`: first occurrence of
the anchor text in the searchable text, mapped back to document
coordinates; `none` when the text is not found. -/
def findAnchorInDocument (fullText : Str) (anchor : CommentAnchor) : Option CommentAnchor :=
  match jsIndexOf (searchableTextOf fullText) anchor.text with
  | some index =>
    some { text := anchor.text,
           startLine := (positionAt fullText (mapBackOffset fullText index)).1,
           startChar := (positionAt fullText (mapBackOffset fullText index)).2,
           endLine := (positionAt fullText (mapBackOffset fullText index + anchor.text.length)).1,
           endChar := (positionAt fullText (mapBackOffset fullText index + anchor.text.length)).2 }
  | none => none

/-- The per-comment step of `reconcileAnchors`. -/
def reconcileComment (text : Str) (comment : Comment) : Comment :=
  match findAnchorInDocument text comment.anchor with
  | some newAnchor =>
    if newAnchor.startLine ≠ comment.anchor.startLine ∨
        newAnchor.startChar ≠ comment.anchor.startChar ∨
        newAnchor.endLine ≠ comment.anchor.endLine ∨
        newAnchor.endChar ≠ comment.anchor.endChar ∨
        comment.orphaned then
      { comment with anchor := newAnchor, orphaned := false }
    else comment
  | none =>
    if comment.orphaned then comment else { comment with orphaned := true }

/-- `reconcileAnchors`: every comment is reconciled independently against
the same document text. -/
def reconcileAnchors (text : Str) (comments : List Comment) : List Comment :=
  comments.map (reconcileComment text)

/-! ### Reconciliation orphans anchors found only in the block (claim C1) -/

/-- Claim C1 (amended): a comment whose anchor text occurs only inside the
metadata block's byte range is marked orphaned by reconciliation — provided
the anchor text also does not occur in the searchable text formed by
concatenating the text before the block with the text after it (a match can
still arise spanning the excision junction); the anchor itself is left
unchanged. -/
theorem reconcile_orphans_when_text_only_in_block (text : Str) (c : Comment) (s e : Nat)
    (hs : findCommentBlockStart text = some s)
    (he : jsIndexOfFrom text COMMENT_BLOCK_END s = some e)
    (honly : ∀ j, occursAt c.anchor.text text j →
      s ≤ j ∧ j + c.anchor.text.length ≤ e + COMMENT_BLOCK_END.length)
    (hnotfound : jsIndexOf (searchableTextOf text) c.anchor.text = none) :
    (reconcileComment text c).orphaned = true ∧
    (reconcileComment text c).anchor = c.anchor := by
  unfold reconcileComment findAnchorInDocument
  rw [hnotfound]
  by_cases horph : c.orphaned = true
  · simp [horph]
  · simp [horph]

/-- A document whose comment's anchor text `bc` survives only inside the
metadata block, yet the excision of the block glues `ab` and `cd` into
`abcd`, creating a spurious junction match. -/
def cexDoc : Str := "ab<!-- markco-comments bc -->cd".toList

/-- The comment anchored at the deleted text `bc` of `cexDoc`. -/
def cexComment : Comment :=
  { id := "c1".toList,
    anchor := { text := "bc".toList, startLine := 0, startChar := 23, endLine := 0, endChar := 25 },
    content := "note".toList, author := "a".toList, createdAt := "t".toList,
    updatedAt := none, resolved := false, orphaned := false, thumbsUp := none, replies := none }

/-- Claim C1, counterexample: in `cexDoc` the anchor text `bc` occurs only
inside the metadata block (every occurrence lies in the block's byte range
2..29), yet reconciliation does not orphan the comment — the excised
junction text `abcd` contains a spurious `bc` match. -/
theorem reconcile_junction_counterexample :
    findCommentBlockStart cexDoc = some 2 ∧
    jsIndexOfFrom cexDoc COMMENT_BLOCK_END 2 = some 26 ∧
    (∀ j, occursAt cexComment.anchor.text cexDoc j →
      2 ≤ j ∧ j + cexComment.anchor.text.length ≤ 26 + COMMENT_BLOCK_END.length) ∧
    occursAt cexComment.anchor.text cexDoc 23 ∧
    (reconcileComment cexDoc cexComment).orphaned = false := by
  refine ⟨by decide, by decide, ?_, by decide, by decide⟩
  intro j hj
  have hlt : j < cexDoc.length := occursAt_lt_length _ _ _ hj (by decide)
  have hlen : cexDoc.length = 31 := by decide
  rw [hlen] at hlt
  interval_cases j <;> revert hj <;> decide

/-- A variant of `cexDoc` without a junction match: excision glues `ax`
and `yd`, which do not contain `bc`. -/
def cexDoc2 : Str := "ax<!-- markco-comments bc -->yd".toList

/-- Witness for `reconcile_orphans_when_text_only_in_block` on `cexDoc2`. -/
theorem reconcile_orphans_when_text_only_in_block_witness :
    (reconcileComment cexDoc2 cexComment).orphaned = true ∧
    (reconcileComment cexDoc2 cexComment).anchor = cexComment.anchor := by
  have honly : ∀ j, occursAt cexComment.anchor.text cexDoc2 j →
      2 ≤ j ∧ j + cexComment.anchor.text.length ≤ 26 + COMMENT_BLOCK_END.length := by
    intro j hj
    have hlt : j < cexDoc2.length := occursAt_lt_length _ _ _ hj (by decide)
    have hlen : cexDoc2.length = 31 := by decide
    rw [hlen] at hlt
    interval_cases j <;> revert hj <;> decide
  exact reconcile_orphans_when_text_only_in_block cexDoc2 cexComment 2 26
    (by decide) (by decide) honly (by decide)

/-! ### Reconciliation relocates anchors that still occur (claim C4) -/

theorem reconcileComment_found (text : Str) (c : Comment) (i : Nat)
    (hfound : jsIndexOf (searchableTextOf text) c.anchor.text = some i) :
    (reconcileComment text c).anchor =
      { text := c.anchor.text,
        startLine := (positionAt text (mapBackOffset text i)).1,
        startChar := (positionAt text (mapBackOffset text i)).2,
        endLine := (positionAt text (mapBackOffset text i + c.anchor.text.length)).1,
        endChar := (positionAt text (mapBackOffset text i + c.anchor.text.length)).2 } ∧
    (reconcileComment text c).orphaned = false := by
  unfold reconcileComment findAnchorInDocument
  rw [hfound]
  dsimp only
  split
  · exact ⟨rfl, rfl⟩
  · rename_i hcond
    push_neg at hcond
    obtain ⟨h1, h2, h3, h4, h5⟩ := hcond
    refine ⟨?_, by simpa using h5⟩
    cases hca : c.anchor with
    | mk t sl sc el ec =>
      rw [hca] at h1 h2 h3 h4
      simp only at h1 h2 h3 h4
      rw [h1, h2, h3, h4]

/-- Claim C4: when the anchor text still occurs in the searchable text,
reconciliation keeps the anchor text, clears `orphaned`, and rewrites the
position fields to the position of the first (left-most) occurrence, with
the found offset mapped back to a document offset by adding the excised
block's length exactly when the match falls at or after the block start. -/
theorem reconcile_relocates_anchor (text : Str) (c : Comment) (i : Nat)
    (hfound : jsIndexOf (searchableTextOf text) c.anchor.text = some i) :
    (reconcileComment text c).anchor.text = c.anchor.text ∧
    (reconcileComment text c).orphaned = false ∧
    occursAt c.anchor.text (searchableTextOf text) i ∧
    (∀ j, occursAt c.anchor.text (searchableTextOf text) j → i ≤ j) ∧
    (reconcileComment text c).anchor.startLine = (positionAt text (mapBackOffset text i)).1 ∧
    (reconcileComment text c).anchor.startChar = (positionAt text (mapBackOffset text i)).2 ∧
    (reconcileComment text c).anchor.endLine =
      (positionAt text (mapBackOffset text i + c.anchor.text.length)).1 ∧
    (reconcileComment text c).anchor.endChar =
      (positionAt text (mapBackOffset text i + c.anchor.text.length)).2 ∧
    (∀ s e, findCommentBlockStart text = some s →
      jsIndexOfFrom text COMMENT_BLOCK_END s = some e → s ≤ i →
      mapBackOffset text i = i + (e + COMMENT_BLOCK_END.length - s)) ∧
    (∀ s, findCommentBlockStart text = some s → i < s → mapBackOffset text i = i) := by
  obtain ⟨ha, ho⟩ := reconcileComment_found text c i hfound
  refine ⟨by rw [ha], ho, (jsIndexOf_some _ _ _ hfound).1, jsIndexOf_first _ _ _ hfound,
    by rw [ha], by rw [ha], by rw [ha], by rw [ha], ?_, ?_⟩
  · intro s e hs he hsi
    unfold mapBackOffset
    rw [hs]
    dsimp only
    rw [if_pos hsi, he]
  · intro s hs his
    unfold mapBackOffset
    rw [hs]
    dsimp only
    rw [if_neg (by omega)]

/-- A document where the anchor text `world` moved from line 0 to line 1. -/
def relocDoc : Str := "q\nworld\n<!-- markco-comments x -->".toList

/-- A comment whose stored anchor still says `world` is on line 0. -/
def relocComment : Comment :=
  { id := "c4".toList,
    anchor := { text := "world".toList, startLine := 0, startChar := 0, endLine := 0, endChar := 5 },
    content := "note".toList, author := "a".toList, createdAt := "t".toList,
    updatedAt := none, resolved := false, orphaned := false, thumbsUp := none, replies := none }

/-- Witness for `reconcile_relocates_anchor`: on `relocDoc` the comment is
re-anchored to line 1, columns 0–5, with `orphaned` cleared. -/
theorem reconcile_relocates_anchor_witness :
    jsIndexOf (searchableTextOf relocDoc) relocComment.anchor.text = some 2 ∧
    (reconcileComment relocDoc relocComment).anchor.startLine = 1 ∧
    (reconcileComment relocDoc relocComment).anchor.startChar = 0 ∧
    (reconcileComment relocDoc relocComment).anchor.endChar = 5 ∧
    (reconcileComment relocDoc relocComment).anchor.text = relocComment.anchor.text ∧
    (reconcileComment relocDoc relocComment).orphaned = false :=
  ⟨by decide, by decide, by decide, by decide, by decide,
    (reconcile_relocates_anchor relocDoc relocComment 2 (by decide)).2.1⟩

/-! ## Preview highlight projector (markdown-it plugin) -/

/-- JavaScript `\w`: ASCII letters, digits and underscore. -/
def isWordChar (c : Char) : Bool :=
  c.isAlphanum || c == '_'

/-- `\w` test lifted to an optional character (no character means no match). -/
def isWordOpt : Option Char → Bool
  | some c => isWordChar c
  | none => false

/-- First normalization step: remove a leading list-number prefix
(digits, a dot, then at least one whitespace character). -/
def stripNumberedListStart (s : Str) : Str :=
  if (s.takeWhile (fun c => c.isDigit)).isEmpty then s
  else
    match s.dropWhile (fun c => c.isDigit) with
    | '.' :: r2 =>
      if (r2.takeWhile isJsSpace).isEmpty then s else r2.dropWhile isJsSpace
    | _ => s

/-- Second normalization step: remove a leading bullet prefix (`-` or `*`
followed by at least one whitespace character). -/
def stripBulletStart (s : Str) : Str :=
  match s with
  | c :: r =>
    if (c = '-' ∨ c = '*') ∧ ¬ (r.takeWhile isJsSpace).isEmpty then r.dropWhile isJsSpace
    else s
  | [] => s

/-- Third normalization step: remove every backtick. -/
def removeBackticks (s : Str) : Str :=
  s.filter (fun c => c ≠ '`')

/-- Fourth normalization step: the global replace of `**` and `__` by
nothing, scanning left to right without overlap. -/
def removeDoubleMarks : Str → Str
  | c :: d :: rest =>
    if (c = '*' ∧ d = '*') ∨ (c = '_' ∧ d = '_') then removeDoubleMarks rest
    else c :: removeDoubleMarks (d :: rest)
  | s => s

/-- Fifth normalization step: remove each single emphasis mark at a
position matched by the lookaround alternation (not preceded by a word
character and not followed by the mark itself, or not followed by a word
character); `prev` is the character preceding the scanned suffix in the
original string, as the lookbehind inspects the input, not the output. -/
def removeEmphMarks (mark : Char) : Option Char → Str → Str
  | _, [] => []
  | prev, c :: rest =>
    if c = mark ∧ ((isWordOpt prev = false ∧ rest.head? ≠ some mark) ∨
        isWordOpt rest.head? = false) then
      removeEmphMarks mark (some c) rest
    else c :: removeEmphMarks mark (some c) rest

/-- `normalizeAnchorText` from the preview plugin: strip list-number and
bullet prefixes, backticks, double bold marks, then single emphasis stars
and underscores (sparing underscores inside words). -/
def normalizeAnchorText (text : Str) : Str :=
  removeEmphMarks '_' none
    (removeEmphMarks '*' none
      (removeDoubleMarks
        (removeBackticks
          (stripBulletStart
            (stripNumberedListStart text)))))

/-- The two fields of a markdown-it token that the projector reads on
inline children. -/
structure Token where
  type : String
  content : Str
deriving DecidableEq, Repr

/-- One entry of the position map built by `extractTextWithPositions`. -/
structure PosMapEntry where
  tokenIndex : Nat
  charStart : Nat
  charEnd : Nat
deriving DecidableEq, Repr

/-- Recursion of `extractTextWithPositions` over the children, carrying
the child index and the combined text accumulated so far. -/
def extractAux : List Token → Nat → Str → Str × List PosMapEntry
  | [], _, fullText => (fullText, [])
  | child :: rest, i, fullText =>
    if child.type = "text" ∨ child.type = "code_inline" then
      match extractAux rest (i + 1) (fullText ++ child.content) with
      | (ft, pm) =>
        (ft, { tokenIndex := i, charStart := fullText.length,
               charEnd := fullText.length + child.content.length } :: pm)
    else
      extractAux rest (i + 1) fullText

/-- `extractTextWithPositions` from the preview plugin: the combined text
of the text-bearing children together with each child's slice of it. -/
def extractTextWithPositions (children : List Token) : Str × List PosMapEntry :=
  extractAux children 0 []

/-- A recorded highlight match (`end` is a reserved word, hence `stop`). -/
structure MatchRec where
  start : Nat
  stop : Nat
  comment : Comment
deriving DecidableEq, Repr

/-- The match-collection loop of `processInlineTokens`: for each relevant
comment the anchor text is normalized and searched in the combined text;
on failure the whole combined text is recorded as the match. -/
def computeInlineMatches (fullText : Str) (relevantComments : List Comment) : List MatchRec :=
  relevantComments.map fun comment =>
    match jsIndexOf fullText (normalizeAnchorText comment.anchor.text) with
    | some index =>
      { start := index,
        stop := index + (normalizeAnchorText comment.anchor.text).length,
        comment := comment }
    | none => { start := 0, stop := fullText.length, comment := comment }

/-! ### Projector matching (claims C6 and C7) -/

/-- Claim C6 (amended): the projector applies `normalizeAnchorText` to the
anchor text unconditionally (there is no prior raw exact-match attempt;
for anchor texts without markup patterns the normalized text equals the
raw text, so the match is then exact) and records the first occurrence of
the normalized text in the combined child text, falling back to the whole
combined text when the normalized text does not occur. -/
theorem projector_matches_normalized (children : List Token)
    (relevantComments : List Comment) (c : Comment) (hmem : c ∈ relevantComments) :
    (∀ i, jsIndexOf (extractTextWithPositions children).1
        (normalizeAnchorText c.anchor.text) = some i →
      ({ start := i, stop := i + (normalizeAnchorText c.anchor.text).length, comment := c } :
          MatchRec) ∈
        computeInlineMatches (extractTextWithPositions children).1 relevantComments ∧
      occursAt (normalizeAnchorText c.anchor.text) (extractTextWithPositions children).1 i ∧
      ∀ j, occursAt (normalizeAnchorText c.anchor.text)
        (extractTextWithPositions children).1 j → i ≤ j) ∧
    (jsIndexOf (extractTextWithPositions children).1
        (normalizeAnchorText c.anchor.text) = none →
      ({ start := 0, stop := (extractTextWithPositions children).1.length, comment := c } :
          MatchRec) ∈
        computeInlineMatches (extractTextWithPositions children).1 relevantComments) := by
  constructor
  · intro i hi
    refine ⟨?_, (jsIndexOf_some _ _ _ hi).1, jsIndexOf_first _ _ _ hi⟩
    have := List.mem_map_of_mem (f := fun comment =>
      match jsIndexOf (extractTextWithPositions children).1
          (normalizeAnchorText comment.anchor.text) with
      | some index =>
        ({ start := index,
           stop := index + (normalizeAnchorText comment.anchor.text).length,
           comment := comment } : MatchRec)
      | none =>
        { start := 0, stop := (extractTextWithPositions children).1.length,
          comment := comment }) hmem
    dsimp only at this
    rw [hi] at this
    exact this
  · intro hnone
    have := List.mem_map_of_mem (f := fun comment =>
      match jsIndexOf (extractTextWithPositions children).1
          (normalizeAnchorText comment.anchor.text) with
      | some index =>
        ({ start := index,
           stop := index + (normalizeAnchorText comment.anchor.text).length,
           comment := comment } : MatchRec)
      | none =>
        { start := 0, stop := (extractTextWithPositions children).1.length,
          comment := comment }) hmem
    dsimp only at this
    rw [hnone] at this
    exact this

/-- A comment whose raw anchor text `2. x` literally occurs in the combined
text `x 2. x` at offset 2, while its normalized form `x` occurs at offset 0. -/
def numPrefixComment : Comment :=
  { id := "c6".toList,
    anchor := { text := "2. x".toList, startLine := 0, startChar := 2, endLine := 0, endChar := 6 },
    content := "note".toList, author := "a".toList, createdAt := "t".toList,
    updatedAt := none, resolved := false, orphaned := false, thumbsUp := none, replies := none }

/-- Claim C6, counterexample: the projector does not attempt an exact raw
match first.  The raw anchor `2. x` occurs exactly at offset 2 of the
combined text `x 2. x`, yet the recorded match is `[0, 1)` — the first
occurrence of the unconditionally normalized anchor `x`. -/
theorem projector_no_exact_first_counterexample :
    jsIndexOf "x 2. x".toList numPrefixComment.anchor.text = some 2 ∧
    normalizeAnchorText numPrefixComment.anchor.text = "x".toList ∧
    computeInlineMatches "x 2. x".toList [numPrefixComment] =
      [{ start := 0, stop := 1, comment := numPrefixComment }] := by
  decide

/-- A comment whose anchor text is `inline` wrapped in backticks. -/
def backtickComment : Comment :=
  { id := "c6w".toList,
    anchor := { text := "`inline`".toList, startLine := 0, startChar := 0, endLine := 0, endChar := 8 },
    content := "note".toList, author := "a".toList, createdAt := "t".toList,
    updatedAt := none, resolved := false, orphaned := false, thumbsUp := none, replies := none }

/-- Witness for `projector_matches_normalized`: the backtick-wrapped anchor
matches the rendered `code_inline` content `inline` (backticks stripped),
spanning the whole six characters. -/
theorem projector_matches_normalized_witness :
    normalizeAnchorText backtickComment.anchor.text = "inline".toList ∧
    (extractTextWithPositions [{ type := "code_inline", content := "inline".toList }]).1 =
      "inline".toList ∧
    ({ start := 0, stop := 6, comment := backtickComment } : MatchRec) ∈
      computeInlineMatches
        (extractTextWithPositions [{ type := "code_inline", content := "inline".toList }]).1
        [backtickComment] :=
  ⟨by decide, by decide,
    ((projector_matches_normalized
        [{ type := "code_inline", content := "inline".toList }]
        [backtickComment] backtickComment (by decide)).1 0 (by decide)).1⟩

/-- Claim C7: when neither the raw anchor text nor its normalized form
occurs in the covering token's combined text, the projector still records
a match — spanning offset 0 to the full combined-text length — for that
comment, so the highlight is never dropped. -/
theorem projector_fallback_whole_token (children : List Token)
    (relevantComments : List Comment) (c : Comment) (hmem : c ∈ relevantComments)
    (hraw : jsIndexOf (extractTextWithPositions children).1 c.anchor.text = none)
    (hnorm : jsIndexOf (extractTextWithPositions children).1
      (normalizeAnchorText c.anchor.text) = none) :
    ({ start := 0, stop := (extractTextWithPositions children).1.length, comment := c } :
        MatchRec) ∈
      computeInlineMatches (extractTextWithPositions children).1 relevantComments := by
  have := List.mem_map_of_mem (f := fun comment =>
    match jsIndexOf (extractTextWithPositions children).1
        (normalizeAnchorText comment.anchor.text) with
    | some index =>
      ({ start := index,
         stop := index + (normalizeAnchorText comment.anchor.text).length,
         comment := comment } : MatchRec)
    | none =>
      { start := 0, stop := (extractTextWithPositions children).1.length,
        comment := comment }) hmem
  dsimp only at this
  rw [hnorm] at this
  exact this

/-- A comment whose anchor text `gone` does not occur in `hello world`. -/
def missingComment : Comment :=
  { id := "c7".toList,
    anchor := { text := "gone".toList, startLine := 0, startChar := 0, endLine := 0, endChar := 4 },
    content := "note".toList, author := "a".toList, createdAt := "t".toList,
    updatedAt := none, resolved := false, orphaned := false, thumbsUp := none, replies := none }

/-- Witness for `projector_fallback_whole_token`: the unfound anchor `gone`
yields the whole-text match `[0, 11)` on `hello world`. -/
theorem projector_fallback_whole_token_witness :
    ({ start := 0, stop := 11, comment := missingComment } : MatchRec) ∈
      computeInlineMatches
        (extractTextWithPositions [{ type := "text", content := "hello world".toList }]).1
        [missingComment] := by
  have h := projector_fallback_whole_token
    [{ type := "text", content := "hello world".toList }]
    [missingComment] missingComment (by decide) (by decide) (by decide)
  simpa using h

/-! ## Parsing and saving (`CommentService.ts`) -/

/-- `restoreFromStorage` applied to one reply, as in `parseComments`. -/
def restoreReply (r : Reply) : Reply :=
  { r with content := restoreFromStorage r.content }

/-- `restoreFromStorage` applied to one comment, as in `parseComments`. -/
def restoreComment (c : Comment) : Comment :=
  { c with
    anchor := { c.anchor with text := restoreFromStorage c.anchor.text },
    content := restoreFromStorage c.content,
    replies := c.replies.map (List.map restoreReply) }

/-- `parseComments` from `CommentService.ts`.  `decode` abstracts
`JSON.parse` together with the subsequent field access: `.fail` models a
thrown exception (caught by the code), `.okBad` a payload without a
`comments` array (the code substitutes `[]`), `.ok` a well-shaped payload.
The result pairs the returned comment list with the new cache entry for
the document; every path records its result in the cache, and no path
can raise (the function is total). -/
def parseComments (decode : Str → DecodeResult) (text : Str) :
    List Comment × Option (List Comment) :=
  match findCommentBlockStart text with
  | none => ([], some [])
  | some startIndex =>
    match jsIndexOfFrom text COMMENT_BLOCK_END startIndex with
    | none => ([], some [])
    | some endIndex =>
      let jsonText := jsTrim ((text.take endIndex).drop (startIndex + COMMENT_BLOCK_START.length))
      if jsonText.head? ≠ some '{' then ([], some [])
      else
        match decode jsonText with
        | .fail => ([], some [])
        | .okBad => ([], some [])
        | .ok cs =>
          let comments := cs.map restoreComment
          (comments, some comments)

/-- `getComments`: return the cache entry, parsing (and caching) on a miss. -/
def getComments (decode : Str → DecodeResult) (text : Str) (cache : Option (List Comment)) :
    List Comment × Option (List Comment) :=
  match cache with
  | some cs => (cs, some cs)
  | none => parseComments decode text

/-- One operation of a `WorkspaceEdit`. -/
inductive EditOp where
  | insert (line chr : Nat) (newText : Str)
  | replace (startLine startChar endLine endChar : Nat) (newText : Str)
deriving DecidableEq, Repr

/-- `sanitizeForStorage` applied to one reply, as in `saveComments`. -/
def sanitizeReply (r : Reply) : Reply :=
  { r with content := sanitizeForStorage r.content }

/-- `sanitizeForStorage` applied to one comment, as in `saveComments`. -/
def sanitizeComment (c : Comment) : Comment :=
  { c with
    anchor := { c.anchor with text := sanitizeForStorage c.anchor.text },
    content := sanitizeForStorage c.content,
    replies := c.replies.map (List.map sanitizeReply) }

/-- `saveComments` from `CommentService.ts`.  `stringify` abstracts
`JSON.stringify` and `applyEdit` the host's `workspace.applyEdit`.  The
result is (success, the workspace-edit operations, the new cache entry):
on success the cache is replaced by a copy of the given comments, on
failure it is left unchanged. -/
def saveComments (stringify : CommentData → Str) (applyEdit : List EditOp → Bool)
    (text : Str) (cache : Option (List Comment)) (comments : List Comment) :
    Bool × List EditOp × Option (List Comment) :=
  let sanitizedComments := comments.map sanitizeComment
  let data : CommentData := { version := 2, comments := sanitizedComments }
  let jsonBlock := COMMENT_BLOCK_START ++ '\n' :: stringify data ++ '\n' :: COMMENT_BLOCK_END
  let edit : List EditOp :=
    match findCommentBlockStart text with
    | none =>
      [EditOp.insert (lineCount text - 1) (lineAt text (lineCount text - 1)).length
        ('\n' :: '\n' :: jsonBlock)]
    | some startIndex =>
      match jsIndexOfFrom text COMMENT_BLOCK_END startIndex with
      | some endIndex =>
        [EditOp.replace (positionAt text startIndex).1 (positionAt text startIndex).2
          (positionAt text (endIndex + COMMENT_BLOCK_END.length)).1
          (positionAt text (endIndex + COMMENT_BLOCK_END.length)).2 jsonBlock]
      | none => []
  let success := applyEdit edit
  (success, edit, if success then some comments else cache)

/-- A selection, as the pair of document positions the editor supplies. -/
structure Selection where
  startLine : Nat
  startChar : Nat
  endLine : Nat
  endChar : Nat
deriving DecidableEq, Repr

/-- `document.getText(selection)`. -/
def getTextRange (text : Str) (sel : Selection) : Str :=
  (text.take (offsetAt text sel.endLine sel.endChar)).drop
    (offsetAt text sel.startLine sel.startChar)

/-- `addComment` from `CommentService.ts`; `uuid`, `author` and
`createdAt` stand for the generated id, the git user name and the
timestamp.  Returns (result, workspace-edit operations, new cache entry).
`comments.push(comment)` mutates the array held by the cache, so the
cache entry after the call contains the pushed comment whether or not the
edit succeeded. -/
def addComment (decode : Str → DecodeResult) (stringify : CommentData → Str)
    (applyEdit : List EditOp → Bool) (uuid author createdAt : Str)
    (text : Str) (cache : Option (List Comment)) (selection : Selection)
    (content : Str) : Option Comment × List EditOp × Option (List Comment) :=
  let selectedText := getTextRange text selection
  if jsTrim selectedText = [] then (none, [], cache)
  else
    let comment : Comment :=
      { id := uuid,
        anchor := { text := selectedText, startLine := selection.startLine,
                    startChar := selection.startChar, endLine := selection.endLine,
                    endChar := selection.endChar },
        content := content, author := author, createdAt := createdAt,
        updatedAt := none, resolved := false, orphaned := false,
        thumbsUp := none, replies := none }
    let comments := (getComments decode text cache).1
    let res := saveComments stringify applyEdit text (some (comments ++ [comment]))
      (comments ++ [comment])
    (if res.1 then some comment else none, res.2.1, res.2.2)

/-- Replace the first comment with the given id (the in-place mutation of
the object returned by `comments.find`). -/
def updateFirstById (commentId : Str) (f : Comment → Comment) :
    List Comment → Option (Comment × List Comment)
  | [] => none
  | c :: cs =>
    if c.id = commentId then some (f c, f c :: cs)
    else
      match updateFirstById commentId f cs with
      | some (u, cs2) => some (u, c :: cs2)
      | none => none

/-- `reAnchorComment` from `CommentService.ts`; `updatedAt` stands for the
timestamp.  Returns (result, workspace-edit operations, new cache entry). -/
def reAnchorComment (decode : Str → DecodeResult) (stringify : CommentData → Str)
    (applyEdit : List EditOp → Bool) (updatedAt : Str)
    (text : Str) (cache : Option (List Comment)) (commentId : Str)
    (selection : Selection) : Option Comment × List EditOp × Option (List Comment) :=
  let selectedText := getTextRange text selection
  if jsTrim selectedText = [] then (none, [], cache)
  else
    let got := getComments decode text cache
    match updateFirstById commentId (fun c =>
        { c with
          anchor := { text := selectedText, startLine := selection.startLine,
                      startChar := selection.startChar, endLine := selection.endLine,
                      endChar := selection.endChar },
          orphaned := false, updatedAt := some updatedAt }) got.1 with
    | none => (none, [], got.2)
    | some (updated, newComments) =>
      let res := saveComments stringify applyEdit text (some newComments) newComments
      (if res.1 then some updated else none, res.2.1, res.2.2)

/-! ### Malformed payloads degrade to the empty list (claim C5) -/

/-- Claim C5: when the located metadata block holds a malformed payload —
the trimmed text between the markers does not start with `{`, or decoding
fails — `parseComments` returns the empty comment list and records it in
the cache; the function is total, so no exception reaches the caller. -/
theorem parseComments_malformed (decode : Str → DecodeResult) (text : Str) (s e : Nat)
    (hs : findCommentBlockStart text = some s)
    (he : jsIndexOfFrom text COMMENT_BLOCK_END s = some e)
    (hbad : (jsTrim ((text.take e).drop (s + COMMENT_BLOCK_START.length))).head? ≠ some '{' ∨
      decode (jsTrim ((text.take e).drop (s + COMMENT_BLOCK_START.length))) = .fail) :
    parseComments decode text = ([], some []) := by
  unfold parseComments
  rw [hs]
  dsimp only
  rw [he]
  dsimp only
  rcases hbad with hbad | hbad
  · rw [if_pos hbad]
  · split
    · rfl
    · rw [hbad]

/-- A document whose block payload `notjson` does not start with `{`. -/
def malformedDoc : Str := "abc\n\n<!-- markco-comments\nnotjson\n-->".toList

/-- Witness for `parseComments_malformed` on `malformedDoc` (with a
decoder that would even succeed — the brace guard already rejects). -/
theorem parseComments_malformed_witness :
    parseComments (fun _ => DecodeResult.fail) malformedDoc = ([], some []) :=
  parseComments_malformed (fun _ => DecodeResult.fail) malformedDoc 5 34
    (by decide) (by decide) (Or.inl (by decide))

/-! ### Saving with a start marker but no end marker (claim C9) -/

/-- Claim C9: when the document has an accepted start marker but no end
marker at or after it, `saveComments` issues an empty workspace edit (no
insert, no replace — the document text is unchanged); when applying the
empty edit reports success, the cache is still replaced with the given
comments and `true` is returned. -/
theorem saveComments_no_end_marker (stringify : CommentData → Str)
    (applyEdit : List EditOp → Bool) (text : Str) (cache : Option (List Comment))
    (comments : List Comment) (s : Nat)
    (hs : findCommentBlockStart text = some s)
    (he : jsIndexOfFrom text COMMENT_BLOCK_END s = none)
    (happly : applyEdit [] = true) :
    saveComments stringify applyEdit text cache comments = (true, [], some comments) := by
  unfold saveComments
  rw [hs]
  dsimp only
  rw [he]
  simp [happly]

/-- A document with a start marker but no end marker anywhere. -/
def noEndDoc : Str := "<!-- markco-comments x".toList

/-- Witness for `saveComments_no_end_marker` on `noEndDoc`. -/
theorem saveComments_no_end_marker_witness :
    saveComments (fun _ => "J".toList) (fun _ => true) noEndDoc none [] =
      (true, [], some []) :=
  saveComments_no_end_marker (fun _ => "J".toList) (fun _ => true) noEndDoc none [] 0
    (by decide) (by decide) rfl

/-! ### Blank-input rejection (claim C8) -/

/-- Claim C8 (amended): a blank (empty or whitespace-only) selection is
rejected by `addComment` and `reAnchorComment` before any state mutation:
both return `none` with no workspace-edit operation and an unchanged
cache.  (Blank content is not checked by these functions; see the
counterexample.) -/
theorem blank_selection_rejected (decode : Str → DecodeResult)
    (stringify : CommentData → Str) (applyEdit : List EditOp → Bool)
    (uuid author createdAt updatedAt : Str) (text : Str)
    (cache : Option (List Comment)) (selection : Selection) (content commentId : Str)
    (hblank : jsTrim (getTextRange text selection) = []) :
    addComment decode stringify applyEdit uuid author createdAt text cache selection
        content = (none, [], cache) ∧
    reAnchorComment decode stringify applyEdit updatedAt text cache commentId
        selection = (none, [], cache) := by
  constructor
  · unfold addComment
    rw [if_pos hblank]
  · unfold reAnchorComment
    rw [if_pos hblank]

/-- Witness for `blank_selection_rejected`: an empty selection on the
document `ab`. -/
theorem blank_selection_rejected_witness :
    addComment (fun _ => DecodeResult.fail) (fun _ => "J".toList) (fun _ => true)
        "u".toList "au".toList "ts".toList "ab".toList (some []) ⟨0, 0, 0, 0⟩
        "hi".toList = (none, [], some []) ∧
    reAnchorComment (fun _ => DecodeResult.fail) (fun _ => "J".toList) (fun _ => true)
        "ts".toList "ab".toList (some []) "x".toList ⟨0, 0, 0, 0⟩ =
      (none, [], some []) :=
  blank_selection_rejected (fun _ => DecodeResult.fail) (fun _ => "J".toList)
    (fun _ => true) "u".toList "au".toList "ts".toList "ts".toList "ab".toList
    (some []) ⟨0, 0, 0, 0⟩ "hi".toList "x".toList (by decide)

/-- Claim C8, counterexample: blank content is not rejected.  With the
non-blank selection `ab` and empty content, `addComment` creates and
returns a comment (the host edit succeeding), instead of returning null. -/
theorem blank_content_not_rejected_counterexample :
    jsTrim ([] : Str) = [] ∧
    (addComment (fun _ => DecodeResult.fail) (fun _ => "J".toList) (fun _ => true)
        "u".toList "au".toList "ts".toList "ab".toList (some []) ⟨0, 0, 0, 2⟩
        []).1 ≠ none := by
  decide

/-! ## The preview plugin's own comment parsing (claim C10) -/

/-- `isInsideCodeFence` from the preview plugin: odd number of lines
before the position that begin with three backticks (the multiline
line-anchored fence regex). -/
def isInsideCodeFence (text : Str) (position : Nat) : Bool :=
  (splitNl (text.take position)).countP (fun l => "```".toList.isPrefixOf l) % 2 == 1

/-- Loop of `parseCommentsFromSource`, searching backwards from
`searchStart` for the last valid block; the fuel argument bounds the
number of iterations (the search start strictly decreases, so
`searchStart + 1` iterations always suffice). -/
def pcfsAux (decode : Str → DecodeResult) (src : Str) : Nat → Nat → List Comment
  | 0, _ => []
  | fuel + 1, searchStart =>
    if searchStart = 0 then []
    else
      match lastIdxAux COMMENT_BLOCK_START src (searchStart - 1) with
      | none => []
      | some blockStart =>
        if isInsideCodeFence src blockStart || isInsideInlineCode src blockStart then
          pcfsAux decode src fuel blockStart
        else
          match jsIndexOfFrom src COMMENT_BLOCK_END
              (blockStart + COMMENT_BLOCK_START.length) with
          | none => pcfsAux decode src fuel blockStart
          | some blockEnd =>
            if (jsTrim ((src.take blockEnd).drop
                (blockStart + COMMENT_BLOCK_START.length))).head? ≠ some '{' then
              pcfsAux decode src fuel blockStart
            else
              match decode (jsTrim ((src.take blockEnd).drop
                  (blockStart + COMMENT_BLOCK_START.length))) with
              | .fail => pcfsAux decode src fuel blockStart
              | .okBad => []
              | .ok comments =>
                (comments.filter (fun c => !c.orphaned)).map (fun comment =>
                  { comment with
                    anchor := { comment.anchor with
                      text := restoreFromStorage comment.anchor.text },
                    content := restoreFromStorage comment.content })

/-- `parseCommentsFromSource` from the preview plugin. -/
def parseCommentsFromSource (decode : Str → DecodeResult) (src : Str) : List Comment :=
  pcfsAux decode src (src.length + 1) src.length

/-- Claim C10: the preview projector's own parsing filters out every
comment with `orphaned = true` before any matching is attempted, so no
match — hence no highlight — is ever recorded for an orphaned comment,
even when its anchor text occurs in the token text. -/
theorem preview_parse_filters_orphaned (decode : Str → DecodeResult) (src : Str) :
    (∀ c, c ∈ parseCommentsFromSource decode src → c.orphaned = false) ∧
    (∀ (ft : Str) (m : MatchRec),
      m ∈ computeInlineMatches ft (parseCommentsFromSource decode src) →
      m.comment.orphaned = false) := by
  have key : ∀ fuel searchStart c, c ∈ pcfsAux decode src fuel searchStart →
      c.orphaned = false := by
    intro fuel
    induction fuel with
    | zero => intro searchStart c h; simp [pcfsAux] at h
    | succ fuel' ih =>
      intro searchStart c h
      rw [pcfsAux] at h
      split at h
      · simp at h
      · split at h
        · simp at h
        · split at h
          · exact ih _ _ h
          · split at h
            · exact ih _ _ h
            · split at h
              · exact ih _ _ h
              · split at h
                · exact ih _ _ h
                · simp at h
                · rw [List.mem_map] at h
                  obtain ⟨c0, hc0, rfl⟩ := h
                  rw [List.mem_filter] at hc0
                  simpa using hc0.2
  refine ⟨fun c hc => key _ _ c hc, ?_⟩
  intro ft m hm
  unfold computeInlineMatches at hm
  rw [List.mem_map] at hm
  obtain ⟨c0, hc0, rfl⟩ := hm
  have h0 := key _ _ c0 hc0
  split
  · simpa using h0
  · simpa using h0

/-- A comment that is not orphaned. -/
def keepComment : Comment :=
  { id := "keep".toList,
    anchor := { text := "w".toList, startLine := 0, startChar := 0, endLine := 0, endChar := 1 },
    content := "note".toList, author := "a".toList, createdAt := "t".toList,
    updatedAt := none, resolved := false, orphaned := false, thumbsUp := none, replies := none }

/-- A comment flagged as orphaned. -/
def orphComment : Comment :=
  { keepComment with id := "orph".toList, orphaned := true }

/-- A document holding one metadata block with an object payload. -/
def previewDoc : Str :=
  "<!-- markco-comments ".toList ++ '{' :: '}' :: " -->".toList

/-- The decoder used by the C10 witness: it always yields both comments. -/
def previewDecode : Str → DecodeResult :=
  fun _ => DecodeResult.ok [keepComment, orphComment]

/-- Witness for `preview_parse_filters_orphaned`: the orphaned comment is
filtered out of the parse result, and the surviving comment is not
orphaned. -/
theorem preview_parse_filters_orphaned_witness :
    parseCommentsFromSource previewDecode previewDoc = [keepComment] ∧
    keepComment.orphaned = false :=
  ⟨by decide,
    (preview_parse_filters_orphaned previewDecode previewDoc).1 keepComment (by decide)⟩

end Markco
